import Mathlib

/-!
Verification of the source-rewriting and manifest-generation pipeline
in `src/addons/pull.js`.

The script is a build tool operating on JSON manifests, locale message
catalogs, file trees and JavaScript file contents.  We shallowly embed
the data it manipulates (JSON values, file trees, textual contents) and
each transformation it performs, and prove the specified properties.
-/

namespace Pull

/-! ## JSON values

Manifests and locale catalogs are produced by `JSON.parse`; we model the
resulting values.  Objects are association lists of fields in insertion
order (`JSON.parse` yields unique keys; the model does not depend on
that except where stated).  `none` from a field lookup plays the role of
JS `undefined`. -/

inductive Json where
  | str (s : String)
  | bool (b : Bool)
  | num (n : Int)
  | null
  | arr (elems : List Json)
  | obj (fields : List (String × Json))

/-- First binding of a key in a field list (JS objects have unique keys,
so the first binding is the only one). -/
def lookupField : List (String × Json) → String → Option Json
  | [], _ => none
  | (k', v) :: rest, k => if k = k' then some v else lookupField rest k

/-- `k in o` for a field list. -/
def hasField : List (String × Json) → String → Bool
  | [], _ => false
  | (k', _) :: rest, k => k' = k || hasField rest k

/-- Removal of every binding of a key (JS `delete o[k]`). -/
def removeField : List (String × Json) → String → List (String × Json)
  | [], _ => []
  | (k', v') :: rest, k =>
    if k' = k then removeField rest k else (k', v') :: removeField rest k

/-- In-place overwrite of every binding of a key (JS `o[k] = v` when the
key is present keeps its position). -/
def replaceField : List (String × Json) → String → Json → List (String × Json)
  | [], _, _ => []
  | (k', v') :: rest, k, v =>
    if k' = k then (k, v) :: replaceField rest k v
    else (k', v') :: replaceField rest k v

/-- Property access `o[k]`; `none` models JS `undefined` (also for
access on primitives). -/
def Json.getField : Json → String → Option Json
  | .obj fields, k => lookupField fields k
  | _, _ => none

/-- `delete o[k]`.  `delete` on a primitive is a sloppy-mode no-op, so
non-objects are returned unchanged. -/
def Json.eraseField : Json → String → Json
  | .obj fields, k => .obj (removeField fields k)
  | j, _ => j

/-- Property assignment `o[k] = v`: overwrites an existing binding in
place, otherwise appends.  Assignment on a primitive is a sloppy-mode
no-op, so non-objects are returned unchanged. -/
def Json.setField : Json → String → Json → Json
  | .obj fields, k, v =>
    if hasField fields k then .obj (replaceField fields k v)
    else .obj (fields ++ [(k, v)])
  | j, _, _ => j

/-- JS truthiness of a JSON value. -/
def Json.truthy : Json → Bool
  | .str s => s ≠ ""
  | .bool b => b
  | .num n => n ≠ 0
  | .null => false
  | .arr _ => true
  | .obj _ => true

/-- Truthiness of `o[k]` (a missing field is `undefined`, which is falsy). -/
def Json.truthyField (j : Json) (k : String) : Bool :=
  match j.getField k with
  | some v => v.truthy
  | none => false

/-- `clone` in pull.js is `obj => JSON.parse(JSON.stringify(obj))`, a
deep copy.  On JSON values (all inputs here come from `JSON.parse`) the
round trip is the identity; in a pure model a deep copy is the value
itself — mutation of the copy versus the original is captured by which
value a later operation is applied to. -/
def clone (j : Json) : Json := j

/-! ## Manifest transformer (`generateManifestEntry`, pull.js lines 151–197)

The source function mutates `manifest.tags` in place (filter, then
conditionally push `'new'`), deep-copies the mutated manifest, deletes
the private fields from the copy, and serializes the copy into the
generated module.  We return the pair (mutated manifest argument,
trimmed manifest); the source then serializes the trimmed manifest and
appends environment-conditional override lines (lines 183–195), which
concern neither the trimming nor the mutation and are not modelled.

`manifest.tags.filter(...)` throws a `TypeError` unless `tags` is an
array, hence the `Option`: `none` marks inputs on which the source
crashes. -/

def KEEP_TAGS : List String := ["recommended", "theme", "beta", "danger"]

/-- `KEEP_TAGS.includes(i)` for an arbitrary array element `i`: only a
string can compare equal to the keep-list entries. -/
def keepTag : Json → Bool
  | .str s => KEEP_TAGS.contains s
  | _ => false

/-- Strip `matches` and `runAtComplete` from one userscript entry
(`delete userscript.matches; delete userscript.runAtComplete;`). -/
def trimUserscript (u : Json) : Json :=
  (u.eraseField "matches").eraseField "runAtComplete"

/-- Strip `matches` from one userstyle entry. -/
def trimUserstyle (u : Json) : Json :=
  u.eraseField "matches"

/-- `if (trimmedManifest.userscripts) for (...) delete ...`: an array
field (truthy even when empty) has each entry trimmed.  A missing field
is falsy and skipped; a string iterates over characters on which
`delete` is a no-op; other truthy non-iterables would crash the script
and never produce output, so they are left unchanged here. -/
def trimListField (j : Json) (key : String) (trim : Json → Json) : Json :=
  match j.getField key with
  | some (.arr entries) => j.setField key (.arr (entries.map trim))
  | _ => j

def generateManifestEntry (newAddons : List String) (id : String) (manifest : Json) :
    Option (Json × Json) :=
  match manifest.getField "tags" with
  | some (.arr tags) =>
    let filtered := tags.filter keepTag
    let pushed := if newAddons.contains id then filtered ++ [.str "new"] else filtered
    let mutated := manifest.setField "tags" (.arr pushed)
    let trimmed0 := clone mutated
    let trimmed1 := ((((trimmed0.eraseField "versionAdded").eraseField
        "libraries").eraseField "injectAsStyleElt").eraseField
        "enabledByDefaultMobile").eraseField "permissions"
    let trimmed2 := trimListField trimmed1 "userscripts" trimUserscript
    let trimmed3 := trimListField trimmed2 "userstyles" trimUserstyle
    some (mutated, trimmed3)
  | _ => none

/-! ## Field-access lemmas -/

theorem lookupField_removeField_self (l : List (String × Json)) (k : String) :
    lookupField (removeField l k) k = none := by
  induction l with
  | nil => rfl
  | cons hd tl ih =>
    obtain ⟨a, b⟩ := hd
    by_cases h : a = k
    · simpa [removeField, h] using ih
    · simp [removeField, lookupField, h, Ne.symm h, ih]

theorem lookupField_removeField_ne (l : List (String × Json)) {k' k : String}
    (h : ¬ k' = k) : lookupField (removeField l k') k = lookupField l k := by
  induction l with
  | nil => rfl
  | cons hd tl ih =>
    obtain ⟨a, b⟩ := hd
    by_cases hh : a = k'
    · subst hh
      simp [removeField, lookupField, Ne.symm h, ih]
    · by_cases hk : k = a <;> simp [removeField, lookupField, hh, hk, ih]

theorem lookupField_replaceField_self (l : List (String × Json)) (k : String) (v : Json)
    (h : hasField l k = true) : lookupField (replaceField l k v) k = some v := by
  induction l with
  | nil => simp [hasField] at h
  | cons hd tl ih =>
    obtain ⟨a, b⟩ := hd
    by_cases hh : a = k
    · subst hh
      simp [replaceField, lookupField]
    · have htl : hasField tl k = true := by simpa [hasField, hh] using h
      simp [replaceField, lookupField, hh, Ne.symm hh, ih htl]

theorem lookupField_replaceField_ne (l : List (String × Json)) {k' k : String} (v : Json)
    (h : ¬ k' = k) : lookupField (replaceField l k' v) k = lookupField l k := by
  induction l with
  | nil => rfl
  | cons hd tl ih =>
    obtain ⟨a, b⟩ := hd
    by_cases hh : a = k'
    · subst hh
      simp [replaceField, lookupField, Ne.symm h, ih]
    · by_cases hk : k = a <;> simp [replaceField, lookupField, hh, hk, ih]

theorem lookupField_append_self (l : List (String × Json)) (k : String) (v : Json)
    (h : hasField l k = false) : lookupField (l ++ [(k, v)]) k = some v := by
  induction l with
  | nil => simp [lookupField]
  | cons hd tl ih =>
    obtain ⟨a, b⟩ := hd
    have hh : ¬ a = k := by
      intro e
      simp [hasField, e] at h
    have htl : hasField tl k = false := by simpa [hasField, hh] using h
    simp [lookupField, Ne.symm hh, ih htl]

theorem lookupField_append_ne (l : List (String × Json)) {k' k : String} (v : Json)
    (h : ¬ k' = k) : lookupField (l ++ [(k', v)]) k = lookupField l k := by
  induction l with
  | nil => simp [lookupField, Ne.symm h]
  | cons hd tl ih =>
    obtain ⟨a, b⟩ := hd
    by_cases hk : k = a <;> simp [lookupField, hk, ih]

theorem Json.getField_eraseField_self (j : Json) (k : String) :
    (j.eraseField k).getField k = none := by
  cases j <;> simp [Json.eraseField, Json.getField]
  exact lookupField_removeField_self _ _

theorem Json.getField_eraseField_ne (j : Json) {k' k : String} (h : ¬ k' = k) :
    (j.eraseField k').getField k = j.getField k := by
  cases j <;> simp [Json.eraseField, Json.getField]
  exact lookupField_removeField_ne _ h

theorem Json.getField_setField_self (fields : List (String × Json)) (k : String) (v : Json) :
    ((Json.obj fields).setField k v).getField k = some v := by
  by_cases h : hasField fields k
  · rw [show (Json.obj fields).setField k v = Json.obj (replaceField fields k v) by
      simp [Json.setField, h]]
    simpa [Json.getField] using lookupField_replaceField_self fields k v h
  · have h' : hasField fields k = false := by simpa using h
    rw [show (Json.obj fields).setField k v = Json.obj (fields ++ [(k, v)]) by
      simp [Json.setField, h']]
    simpa [Json.getField] using lookupField_append_self fields k v h'

theorem Json.getField_setField_ne (j : Json) {k' : String} (v : Json) {k : String}
    (h : ¬ k' = k) : (j.setField k' v).getField k = j.getField k := by
  cases j with
  | obj fields =>
    by_cases hh : hasField fields k'
    · rw [show (Json.obj fields).setField k' v = Json.obj (replaceField fields k' v) by
        simp [Json.setField, hh]]
      simpa [Json.getField] using lookupField_replaceField_ne fields v h
    · have h' : hasField fields k' = false := by simpa using hh
      rw [show (Json.obj fields).setField k' v = Json.obj (fields ++ [(k', v)]) by
        simp [Json.setField, h']]
      simpa [Json.getField] using lookupField_append_ne fields v h
  | str s => rfl
  | bool b => rfl
  | num n => rfl
  | null => rfl
  | arr elems => rfl

theorem getField_trimListField_ne (j : Json) (key : String) (f : Json → Json)
    {k : String} (h : ¬ key = k) :
    (trimListField j key f).getField k = j.getField k := by
  unfold trimListField
  split
  · exact Json.getField_setField_ne _ _ h
  · rfl

theorem trimListField_eq_self_of_not_arr (j : Json) (key : String) (f : Json → Json)
    (h : ∀ es, ¬ j.getField key = some (.arr es)) : trimListField j key f = j := by
  unfold trimListField
  split
  · exact absurd (by assumption) (h _)
  · rfl

theorem Json.setField_isObj (fields : List (String × Json)) (k : String) (v : Json) :
    ∃ gs, (Json.obj fields).setField k v = Json.obj gs := by
  by_cases h : hasField fields k
  · exact ⟨replaceField fields k v, by simp [Json.setField, h]⟩
  · exact ⟨fields ++ [(k, v)], by simp [Json.setField, h]⟩

theorem trimListField_isObj (fields : List (String × Json)) (key : String)
    (f : Json → Json) : ∃ gs, trimListField (Json.obj fields) key f = Json.obj gs := by
  unfold trimListField
  split
  · exact Json.setField_isObj _ _ _
  · exact ⟨_, rfl⟩

/-- Userscript clause of the trimming: after both list-field trims, every
entry of the `userscripts` array has lost `matches` and `runAtComplete`. -/
theorem trimmed_userscripts_clean (T1 : Json) (hT1 : ∃ fs, T1 = Json.obj fs) :
    ∀ us, (trimListField (trimListField T1 "userscripts" trimUserscript) "userstyles"
        trimUserstyle).getField "userscripts" = some (.arr us) →
      ∀ u ∈ us, u.getField "matches" = none ∧ u.getField "runAtComplete" = none := by
  obtain ⟨fs, rfl⟩ := hT1
  intro us h
  rw [getField_trimListField_ne _ _ _ (by decide)] at h
  rcases husc : (Json.obj fs).getField "userscripts" with _ | v
  · rw [trimListField_eq_self_of_not_arr _ _ _ (by simp [husc]), husc] at h
    exact absurd h (by simp)
  · cases v with
    | arr es =>
      rw [show trimListField (Json.obj fs) "userscripts" trimUserscript
            = (Json.obj fs).setField "userscripts" (.arr (es.map trimUserscript)) by
          unfold trimListField; rw [husc],
        Json.getField_setField_self] at h
      obtain rfl : es.map trimUserscript = us := by simpa using h
      intro u hu
      obtain ⟨u0, _, rfl⟩ := List.mem_map.1 hu
      refine ⟨?_, ?_⟩
      · rw [trimUserscript, Json.getField_eraseField_ne _ (by decide)]
        exact Json.getField_eraseField_self _ _
      · exact Json.getField_eraseField_self _ _
    | str s =>
      rw [trimListField_eq_self_of_not_arr _ _ _ (by simp [husc]), husc] at h
      exact absurd h (by simp)
    | bool b =>
      rw [trimListField_eq_self_of_not_arr _ _ _ (by simp [husc]), husc] at h
      exact absurd h (by simp)
    | num n =>
      rw [trimListField_eq_self_of_not_arr _ _ _ (by simp [husc]), husc] at h
      exact absurd h (by simp)
    | null =>
      rw [trimListField_eq_self_of_not_arr _ _ _ (by simp [husc]), husc] at h
      exact absurd h (by simp)
    | obj gs =>
      rw [trimListField_eq_self_of_not_arr _ _ _ (by simp [husc]), husc] at h
      exact absurd h (by simp)

/-- Userstyle clause of the trimming. -/
theorem trimmed_userstyles_clean (T1 : Json) (hT1 : ∃ fs, T1 = Json.obj fs) :
    ∀ us, (trimListField (trimListField T1 "userscripts" trimUserscript) "userstyles"
        trimUserstyle).getField "userstyles" = some (.arr us) →
      ∀ u ∈ us, u.getField "matches" = none := by
  obtain ⟨fs, rfl⟩ := hT1
  obtain ⟨gs, hg⟩ := trimListField_isObj fs "userscripts" trimUserscript
  rw [hg]
  intro us h
  rcases husty : (Json.obj gs).getField "userstyles" with _ | v
  · rw [trimListField_eq_self_of_not_arr _ _ _ (by simp [husty]), husty] at h
    exact absurd h (by simp)
  · cases v with
    | arr es =>
      rw [show trimListField (Json.obj gs) "userstyles" trimUserstyle
            = (Json.obj gs).setField "userstyles" (.arr (es.map trimUserstyle)) by
          unfold trimListField; rw [husty],
        Json.getField_setField_self] at h
      obtain rfl : es.map trimUserstyle = us := by simpa using h
      intro u hu
      obtain ⟨u0, _, rfl⟩ := List.mem_map.1 hu
      exact Json.getField_eraseField_self _ _
    | str s =>
      rw [trimListField_eq_self_of_not_arr _ _ _ (by simp [husty]), husty] at h
      exact absurd h (by simp)
    | bool b =>
      rw [trimListField_eq_self_of_not_arr _ _ _ (by simp [husty]), husty] at h
      exact absurd h (by simp)
    | num n =>
      rw [trimListField_eq_self_of_not_arr _ _ _ (by simp [husty]), husty] at h
      exact absurd h (by simp)
    | null =>
      rw [trimListField_eq_self_of_not_arr _ _ _ (by simp [husty]), husty] at h
      exact absurd h (by simp)
    | obj hs =>
      rw [trimListField_eq_self_of_not_arr _ _ _ (by simp [husty]), husty] at h
      exact absurd h (by simp)

/-- C1: for every addon identifier and raw manifest on which
`generateManifestEntry` succeeds, the trimmed manifest it produces never
contains the top-level keys `versionAdded`, `libraries`,
`injectAsStyleElt`, `enabledByDefaultMobile` or `permissions`; every
entry of its `userscripts` list has its `matches` and `runAtComplete`
fields removed, and every entry of its `userstyles` list has its
`matches` field removed. -/
theorem manifest_trim_removes_private_fields
    (newAddons : List String) (id : String) (manifest mutated trimmed : Json)
    (h : generateManifestEntry newAddons id manifest = some (mutated, trimmed)) :
    (trimmed.getField "versionAdded" = none ∧
     trimmed.getField "libraries" = none ∧
     trimmed.getField "injectAsStyleElt" = none ∧
     trimmed.getField "enabledByDefaultMobile" = none ∧
     trimmed.getField "permissions" = none) ∧
    (∀ us, trimmed.getField "userscripts" = some (.arr us) →
      ∀ u ∈ us, u.getField "matches" = none ∧ u.getField "runAtComplete" = none) ∧
    (∀ us, trimmed.getField "userstyles" = some (.arr us) →
      ∀ u ∈ us, u.getField "matches" = none) := by
  unfold generateManifestEntry at h
  split at h
  case h_2 => exact absurd h (by simp)
  case h_1 tags htags =>
  simp only [clone, Option.some.injEq, Prod.mk.injEq] at h
  obtain ⟨hmut, htrim⟩ := h
  subst hmut
  subst htrim
  constructor
  · refine ⟨?_, ?_, ?_, ?_, ?_⟩ <;>
      rw [getField_trimListField_ne _ _ _ (by decide),
        getField_trimListField_ne _ _ _ (by decide)] <;>
      simp [Json.getField_eraseField_ne, Json.getField_eraseField_self]
  · have hobj : ∃ fs,
        (((((manifest.setField "tags"
          (Json.arr (if newAddons.contains id then tags.filter keepTag ++ [Json.str "new"]
            else tags.filter keepTag))).eraseField "versionAdded").eraseField
          "libraries").eraseField "injectAsStyleElt").eraseField
          "enabledByDefaultMobile").eraseField "permissions" = Json.obj fs := by
      cases manifest with
      | obj mfields =>
        obtain ⟨gs, hgs⟩ := Json.setField_isObj mfields "tags"
          (.arr (if newAddons.contains id then tags.filter keepTag ++ [.str "new"]
                 else tags.filter keepTag))
        rw [hgs]
        exact ⟨_, rfl⟩
      | str s => exact absurd htags (by simp [Json.getField])
      | bool b => exact absurd htags (by simp [Json.getField])
      | num n => exact absurd htags (by simp [Json.getField])
      | null => exact absurd htags (by simp [Json.getField])
      | arr es => exact absurd htags (by simp [Json.getField])
    exact ⟨trimmed_userscripts_clean _ hobj, trimmed_userstyles_clean _ hobj⟩

/-! ## Concrete manifest example -/

def exManifest : Json := .obj [
  ("tags", .arr [.str "recommended", .str "experimental"]),
  ("versionAdded", .str "1.0"),
  ("userscripts", .arr [.obj [("url", .str "a.js"), ("matches", .arr [.str "m"]),
    ("runAtComplete", .bool true)]]),
  ("userstyles", .arr [.obj [("url", .str "b.css"), ("matches", .arr [.str "m"])]]),
  ("permissions", .arr [.str "clipboardWrite"])]

/-- Value of the (mutated) manifest argument after
`generateManifestEntry ["x"] "x" exManifest`. -/
def exMutated : Json := .obj [
  ("tags", .arr [.str "recommended", .str "new"]),
  ("versionAdded", .str "1.0"),
  ("userscripts", .arr [.obj [("url", .str "a.js"), ("matches", .arr [.str "m"]),
    ("runAtComplete", .bool true)]]),
  ("userstyles", .arr [.obj [("url", .str "b.css"), ("matches", .arr [.str "m"])]]),
  ("permissions", .arr [.str "clipboardWrite"])]

/-- Trimmed manifest produced by `generateManifestEntry ["x"] "x" exManifest`. -/
def exTrimmed : Json := .obj [
  ("tags", .arr [.str "recommended", .str "new"]),
  ("userscripts", .arr [.obj [("url", .str "a.js")]]),
  ("userstyles", .arr [.obj [("url", .str "b.css")]])]

/-- Witness for C1: the trimming theorem applied at a concrete manifest. -/
theorem manifest_trim_removes_private_fields_witness :
    exTrimmed.getField "versionAdded" = none ∧
    exTrimmed.getField "permissions" = none ∧
    (Json.obj [("url", Json.str "a.js")]).getField "matches" = none ∧
    (Json.obj [("url", Json.str "b.css")]).getField "matches" = none := by
  have h := manifest_trim_removes_private_fields ["x"] "x" exManifest exMutated exTrimmed rfl
  refine ⟨h.1.1, h.1.2.2.2.2, ?_, ?_⟩
  · exact (h.2.1 [Json.obj [("url", Json.str "a.js")]] rfl _ (by simp)).1
  · exact h.2.2 [Json.obj [("url", Json.str "b.css")]] rfl _ (by simp)

/-- C7 counterexample: `generateManifestEntry` does not leave its
manifest argument unchanged.  On a manifest whose tags are
`["recommended", "experimental"]` and with the addon in the new-addons
list, the argument's `tags` field is rewritten in place to
`["recommended", "new"]`. -/
theorem generateManifestEntry_mutates_argument :
    generateManifestEntry ["x"] "x" exManifest = some (exMutated, exTrimmed) ∧
    exMutated ≠ exManifest := by
  refine ⟨rfl, ?_⟩
  intro h
  simp [exMutated, exManifest] at h

/-- C7 amended: the raw manifest argument is not read-only — the tag
filtering and new-tag appending rewrite its `tags` field in place — but
that is the only mutation: every field other than `tags` is unchanged in
the argument, and the field removals happen on a deep copy, observable
only in the returned trimmed document. -/
theorem generateManifestEntry_mutates_only_tags
    (newAddons : List String) (id : String) (manifest mutated trimmed : Json)
    (h : generateManifestEntry newAddons id manifest = some (mutated, trimmed)) :
    (∀ k, ¬ k = "tags" → mutated.getField k = manifest.getField k) ∧
    (∀ tags, manifest.getField "tags" = some (.arr tags) →
      mutated.getField "tags" = some (.arr
        (if newAddons.contains id then tags.filter keepTag ++ [.str "new"]
         else tags.filter keepTag))) := by
  unfold generateManifestEntry at h
  split at h
  case h_2 => exact absurd h (by simp)
  case h_1 tags htags =>
  simp only [clone, Option.some.injEq, Prod.mk.injEq] at h
  obtain ⟨hmut, htrim⟩ := h
  subst hmut
  constructor
  · intro k hk
    exact Json.getField_setField_ne _ _ (fun e => hk e.symm)
  · intro tags' htags'
    obtain rfl : tags = tags' := by
      rw [htags] at htags'
      simpa using htags'
    cases manifest with
    | obj mfields => exact Json.getField_setField_self _ _ _
    | str s => exact absurd htags (by simp [Json.getField])
    | bool b => exact absurd htags (by simp [Json.getField])
    | num n => exact absurd htags (by simp [Json.getField])
    | null => exact absurd htags (by simp [Json.getField])
    | arr es => exact absurd htags (by simp [Json.getField])

/-- Witness for the amended C7 theorem, applied at a concrete manifest. -/
theorem generateManifestEntry_mutates_only_tags_witness :
    exMutated.getField "versionAdded" = exManifest.getField "versionAdded" ∧
    exMutated.getField "tags" = some (.arr [.str "recommended", .str "new"]) := by
  have h := generateManifestEntry_mutates_only_tags ["x"] "x" exManifest exMutated exTrimmed rfl
  refine ⟨h.1 "versionAdded" (by decide), ?_⟩
  have h2 := h.2 [.str "recommended", .str "experimental"] rfl
  exact h2.trans (by rfl)

/-! ## Substring test

`String.prototype.includes`, modelled on character lists: the needle
occurs contiguously somewhere in the haystack (an empty needle is always
found, as in JS). -/

def startsWithCh : List Char → List Char → Bool
  | [], _ => true
  | _ :: _, [] => false
  | n :: ns, c :: cs => n = c && startsWithCh ns cs

def hasSubstr (needle : List Char) : List Char → Bool
  | [] => startsWithCh needle []
  | c :: cs => startsWithCh needle (c :: cs) || hasSubstr needle cs

def strIncludes (haystack needle : String) : Bool :=
  hasSubstr needle.toList haystack.toList

/-! ## Polyfill injection (`includePolyfills`, pull.js lines 107–112) -/

/-- Line prepended (with a following blank line) when the contents
mention `EventTarget`. -/
def POLYFILL_HEADER : String :=
  "import EventTarget from \"../../event-target.js\"; /* inserted by pull.js */\n\n"

def includePolyfills (contents : String) : String :=
  if strIncludes contents "EventTarget" then POLYFILL_HEADER ++ contents else contents

/-- C6 counterexample: the polyfill-injection transform is not
idempotent.  Output of a pass on token-containing contents still
contains the token `EventTarget` (the inserted import line itself names
it), so a second application prepends the import line again. -/
theorem includePolyfills_not_idempotent :
    includePolyfills (includePolyfills "EventTarget") ≠ includePolyfills "EventTarget" := by
  decide

/-- C6 amended: within a single application the polyfill import line
(followed by a blank line) is prepended exactly once when the
browser-API token occurs in the contents — regardless of how many times
it occurs — and contents not containing the token are returned
unchanged.  The transform is, however, not idempotent: its output
contains the token, so reapplying it prepends the line again. -/
theorem includePolyfills_single_pass (contents : String) :
    (strIncludes contents "EventTarget" = true →
      includePolyfills contents = POLYFILL_HEADER ++ contents) ∧
    (strIncludes contents "EventTarget" = false →
      includePolyfills contents = contents) := by
  constructor <;> intro h <;> simp [includePolyfills, h]

/-- Witness for the amended C6 theorem at concrete contents. -/
theorem includePolyfills_single_pass_witness :
    includePolyfills "new EventTarget()" = POLYFILL_HEADER ++ "new EventTarget()" ∧
    includePolyfills "plain code" = "plain code" := by
  exact ⟨(includePolyfills_single_pass "new EventTarget()").1 (by decide),
         (includePolyfills_single_pass "plain code").2 (by decide)⟩

/-! ## Locale partitioner (`parseMessages`, pull.js lines 245–283)

For each addon (in list order) the script reads and parses
`<localePath>/<addon>.json` inside a `try`: a missing or unparsable file
is silently skipped.  A parsed catalog's keys are iterated in sorted
order (`Object.keys(parsed).sort()`); excluded ids are skipped, ids
containing the settings marker `/@` go into `settings`, all others into
`runtime`.  We model the filesystem-and-parse step as a function
returning `none` exactly when the read or the parse fails. -/

def SKIP_MESSAGES : List String := [
  "debugger/feedback-log",
  "debugger/feedback-log-link",
  "debugger/feedback-remove",
  "editor-devtools/help-by",
  "editor-devtools/extension-description-not-for-addon",
  "mediarecorder/added-by",
  "editor-theme3/@settings-name-sa-color",
  "block-switching/@settings-name-sa"]

/-- Code-unit comparison of two strings, as used by the default
`Array.prototype.sort()` comparator (message ids are ASCII, where JS
UTF-16 code-unit order and code-point order agree). -/
def leStr : List Char → List Char → Bool
  | [], _ => true
  | _ :: _, [] => false
  | a :: as, b :: bs => if a = b then leStr as bs else decide (a < b)

def insertSorted (x : String) : List String → List String
  | [] => [x]
  | y :: ys => if leStr x.toList y.toList then x :: y :: ys else y :: insertSorted x ys

/-- Result of `Object.keys(parsed).sort()`: the key list in ascending
order (insertion sort; keys of a parsed object are unique, so any stable
comparison sort produces this list). -/
def sortKeys (l : List String) : List String := l.foldr insertSorted []

/-- JS `dict[id] = value`: overwrite in place or append. -/
def setKey (m : List (String × Json)) (k : String) (v : Json) : List (String × Json) :=
  if hasField m k then replaceField m k v else m ++ [(k, v)]

/-- Loop body over the sorted key list of one parsed catalog.  The ids
come from `Object.keys(parsed)`, so the lookup is always `some`; `.getD
.null` is never exercised. -/
def processCatalogGo (parsed : List (String × Json)) :
    List String → List (String × Json) → List (String × Json) →
      List (String × Json) × List (String × Json)
  | [], settings, runtime => (settings, runtime)
  | id :: rest, settings, runtime =>
    if SKIP_MESSAGES.contains id then processCatalogGo parsed rest settings runtime
    else
      let value := (lookupField parsed id).getD Json.null
      if strIncludes id "/@" then
        processCatalogGo parsed rest (setKey settings id value) runtime
      else
        processCatalogGo parsed rest settings (setKey runtime id value)

/-- Processing of one successfully parsed catalog into the two
accumulated message groups. -/
def processCatalog (parsed : List (String × Json))
    (settings runtime : List (String × Json)) :
    List (String × Json) × List (String × Json) :=
  processCatalogGo parsed (sortKeys (parsed.map Prod.fst)) settings runtime

/-- Per-addon loop of `parseMessages`.  `files a = none` models
`readFileSync` or `JSON.parse` throwing for addon `a` (missing or
unparsable file): the addon is skipped silently. -/
def parseMessagesGo (files : String → Option (List (String × Json))) :
    List String → List (String × Json) → List (String × Json) →
      List (String × Json) × List (String × Json)
  | [], settings, runtime => (settings, runtime)
  | a :: rest, settings, runtime =>
    match files a with
    | none => parseMessagesGo files rest settings runtime
    | some parsed =>
      let p := processCatalog parsed settings runtime
      parseMessagesGo files rest p.1 p.2

def parseMessages (addons : List String)
    (files : String → Option (List (String × Json))) :
    List (String × Json) × List (String × Json) :=
  parseMessagesGo files addons [] []

/-! ### Lemmas about key membership -/

theorem hasField_iff_mem (m : List (String × Json)) (k : String) :
    hasField m k = true ↔ k ∈ m.map Prod.fst := by
  induction m with
  | nil => simp [hasField]
  | cons hd tl ih =>
    obtain ⟨a, b⟩ := hd
    by_cases h : a = k
    · subst h
      simp [hasField]
    · simp [hasField, h, Ne.symm h, ih]

theorem keys_replaceField (m : List (String × Json)) (k : String) (v : Json) :
    (replaceField m k v).map Prod.fst = m.map Prod.fst := by
  induction m with
  | nil => rfl
  | cons hd tl ih =>
    obtain ⟨a, b⟩ := hd
    by_cases h : a = k <;> simp [replaceField, h, ih]

theorem mem_keys_setKey (m : List (String × Json)) (k : String) (v : Json) (id : String) :
    id ∈ (setKey m k v).map Prod.fst ↔ id ∈ m.map Prod.fst ∨ id = k := by
  unfold setKey
  by_cases h : hasField m k
  · rw [if_pos h, keys_replaceField]
    constructor
    · exact Or.inl
    · rintro (hm | rfl)
      · exact hm
      · exact (hasField_iff_mem m id).1 h
  · rw [if_neg h]
    simp

theorem mem_insertSorted (x : String) (l : List String) (id : String) :
    id ∈ insertSorted x l ↔ id = x ∨ id ∈ l := by
  induction l with
  | nil => simp [insertSorted]
  | cons y ys ih =>
    unfold insertSorted
    split
    · simp [List.mem_cons]
    · simp only [List.mem_cons, ih]
      tauto

theorem mem_sortKeys (l : List String) (id : String) :
    id ∈ sortKeys l ↔ id ∈ l := by
  induction l with
  | nil => simp [sortKeys]
  | cons x xs ih =>
    simp only [sortKeys, List.foldr_cons] at *
    rw [mem_insertSorted, ih, List.mem_cons]

theorem mem_SKIP_of_contains {id : String} (h : SKIP_MESSAGES.contains id = true) :
    id ∈ SKIP_MESSAGES := by
  simpa using h

/-- Key membership in the settings group produced by the catalog loop. -/
theorem processCatalogGo_mem_settings (parsed : List (String × Json)) :
    ∀ (ids : List String) (s r : List (String × Json)) (id : String),
      id ∈ (processCatalogGo parsed ids s r).1.map Prod.fst ↔
        id ∈ s.map Prod.fst ∨
          (id ∈ ids ∧ id ∉ SKIP_MESSAGES ∧ strIncludes id "/@" = true) := by
  intro ids
  induction ids with
  | nil => simp [processCatalogGo]
  | cons hd rest ih =>
    intro s r id
    by_cases hskip : SKIP_MESSAGES.contains hd
    · rw [show processCatalogGo parsed (hd :: rest) s r
          = processCatalogGo parsed rest s r by
            simp [processCatalogGo, mem_SKIP_of_contains hskip]]
      rw [ih]
      have hhd : hd ∈ SKIP_MESSAGES := mem_SKIP_of_contains hskip
      constructor
      · rintro (h | ⟨hm, hp⟩)
        · exact Or.inl h
        · exact Or.inr ⟨List.mem_cons_of_mem _ hm, hp⟩
      · rintro (h | ⟨hm, hns, hmk⟩)
        · exact Or.inl h
        · rcases List.mem_cons.1 hm with rfl | hm'
          · exact absurd hhd hns
          · exact Or.inr ⟨hm', hns, hmk⟩
    · have hns : hd ∉ SKIP_MESSAGES := fun hmem => hskip (by simpa using hmem)
      by_cases hmk : strIncludes hd "/@"
      · rw [show processCatalogGo parsed (hd :: rest) s r
            = processCatalogGo parsed rest
                (setKey s hd ((lookupField parsed hd).getD Json.null)) r by
              simp [processCatalogGo, hskip, hns, hmk]]
        rw [ih, mem_keys_setKey]
        constructor
        · rintro ((h | rfl) | ⟨hm, hp⟩)
          · exact Or.inl h
          · exact Or.inr ⟨List.mem_cons_self _ _, hns, hmk⟩
          · exact Or.inr ⟨List.mem_cons_of_mem _ hm, hp⟩
        · rintro (h | ⟨hm, hns', hmk'⟩)
          · exact Or.inl (Or.inl h)
          · rcases List.mem_cons.1 hm with rfl | hm'
            · exact Or.inl (Or.inr rfl)
            · exact Or.inr ⟨hm', hns', hmk'⟩
      · rw [show processCatalogGo parsed (hd :: rest) s r
            = processCatalogGo parsed rest s
                (setKey r hd ((lookupField parsed hd).getD Json.null)) by
              simp [processCatalogGo, hskip, hns, hmk]]
        rw [ih]
        constructor
        · rintro (h | ⟨hm, hp⟩)
          · exact Or.inl h
          · exact Or.inr ⟨List.mem_cons_of_mem _ hm, hp⟩
        · rintro (h | ⟨hm, hns', hmk'⟩)
          · exact Or.inl h
          · rcases List.mem_cons.1 hm with rfl | hm'
            · exact absurd hmk' (by simpa using hmk)
            · exact Or.inr ⟨hm', hns', hmk'⟩

/-- Key membership in the runtime group produced by the catalog loop. -/
theorem processCatalogGo_mem_runtime (parsed : List (String × Json)) :
    ∀ (ids : List String) (s r : List (String × Json)) (id : String),
      id ∈ (processCatalogGo parsed ids s r).2.map Prod.fst ↔
        id ∈ r.map Prod.fst ∨
          (id ∈ ids ∧ id ∉ SKIP_MESSAGES ∧ strIncludes id "/@" = false) := by
  intro ids
  induction ids with
  | nil => simp [processCatalogGo]
  | cons hd rest ih =>
    intro s r id
    by_cases hskip : SKIP_MESSAGES.contains hd
    · rw [show processCatalogGo parsed (hd :: rest) s r
          = processCatalogGo parsed rest s r by
            simp [processCatalogGo, mem_SKIP_of_contains hskip]]
      rw [ih]
      have hhd : hd ∈ SKIP_MESSAGES := mem_SKIP_of_contains hskip
      constructor
      · rintro (h | ⟨hm, hp⟩)
        · exact Or.inl h
        · exact Or.inr ⟨List.mem_cons_of_mem _ hm, hp⟩
      · rintro (h | ⟨hm, hns, hmk⟩)
        · exact Or.inl h
        · rcases List.mem_cons.1 hm with rfl | hm'
          · exact absurd hhd hns
          · exact Or.inr ⟨hm', hns, hmk⟩
    · have hns : hd ∉ SKIP_MESSAGES := fun hmem => hskip (by simpa using hmem)
      by_cases hmk : strIncludes hd "/@"
      · rw [show processCatalogGo parsed (hd :: rest) s r
            = processCatalogGo parsed rest
                (setKey s hd ((lookupField parsed hd).getD Json.null)) r by
              simp [processCatalogGo, hskip, hns, hmk]]
        rw [ih]
        constructor
        · rintro (h | ⟨hm, hp⟩)
          · exact Or.inl h
          · exact Or.inr ⟨List.mem_cons_of_mem _ hm, hp⟩
        · rintro (h | ⟨hm, hns', hmk'⟩)
          · exact Or.inl h
          · rcases List.mem_cons.1 hm with rfl | hm'
            · exact absurd hmk (by simp [hmk'])
            · exact Or.inr ⟨hm', hns', hmk'⟩
      · rw [show processCatalogGo parsed (hd :: rest) s r
            = processCatalogGo parsed rest s
                (setKey r hd ((lookupField parsed hd).getD Json.null)) by
              simp [processCatalogGo, hskip, hns, hmk]]
        rw [ih, mem_keys_setKey]
        constructor
        · rintro ((h | rfl) | ⟨hm, hp⟩)
          · exact Or.inl h
          · exact Or.inr ⟨List.mem_cons_self _ _, hns, by simpa using hmk⟩
          · exact Or.inr ⟨List.mem_cons_of_mem _ hm, hp⟩
        · rintro (h | ⟨hm, hns', hmk'⟩)
          · exact Or.inl (Or.inl h)
          · rcases List.mem_cons.1 hm with rfl | hm'
            · exact Or.inl (Or.inr rfl)
            · exact Or.inr ⟨hm', hns', hmk'⟩

/-- Monotonicity: processing a catalog never removes settings keys. -/
theorem processCatalog_mono_settings (parsed s r : List (String × Json)) (id : String)
    (h : id ∈ s.map Prod.fst) : id ∈ (processCatalog parsed s r).1.map Prod.fst := by
  rw [processCatalog, processCatalogGo_mem_settings]
  exact Or.inl h

/-- Monotonicity: processing a catalog never removes runtime keys. -/
theorem processCatalog_mono_runtime (parsed s r : List (String × Json)) (id : String)
    (h : id ∈ r.map Prod.fst) : id ∈ (processCatalog parsed s r).2.map Prod.fst := by
  rw [processCatalog, processCatalogGo_mem_runtime]
  exact Or.inl h

/-- Skipped or failing addons contribute nothing: the loop behaves as if
they were absent from the addon list. -/
theorem parseMessagesGo_filter (files : String → Option (List (String × Json))) :
    ∀ (addons : List String) (s r : List (String × Json)),
      parseMessagesGo files addons s r
        = parseMessagesGo files (addons.filter fun a => (files a).isSome) s r := by
  intro addons
  induction addons with
  | nil => intro s r; rfl
  | cons a rest ih =>
    intro s r
    cases hf : files a with
    | none => simp [parseMessagesGo, hf, ih]
    | some p => simp [parseMessagesGo, hf, ih]

theorem parseMessagesGo_mono_settings (files : String → Option (List (String × Json))) :
    ∀ (addons : List String) (s r : List (String × Json)) (id : String),
      id ∈ s.map Prod.fst → id ∈ (parseMessagesGo files addons s r).1.map Prod.fst := by
  intro addons
  induction addons with
  | nil => intro s r id h; simpa [parseMessagesGo] using h
  | cons a rest ih =>
    intro s r id h
    cases hf : files a with
    | none =>
      rw [show parseMessagesGo files (a :: rest) s r = parseMessagesGo files rest s r by
        simp [parseMessagesGo, hf]]
      exact ih _ _ _ h
    | some p =>
      rw [show parseMessagesGo files (a :: rest) s r
          = parseMessagesGo files rest (processCatalog p s r).1 (processCatalog p s r).2 by
        simp [parseMessagesGo, hf]]
      exact ih _ _ _ (processCatalog_mono_settings _ _ _ _ h)

theorem parseMessagesGo_mono_runtime (files : String → Option (List (String × Json))) :
    ∀ (addons : List String) (s r : List (String × Json)) (id : String),
      id ∈ r.map Prod.fst → id ∈ (parseMessagesGo files addons s r).2.map Prod.fst := by
  intro addons
  induction addons with
  | nil => intro s r id h; simpa [parseMessagesGo] using h
  | cons a rest ih =>
    intro s r id h
    cases hf : files a with
    | none =>
      rw [show parseMessagesGo files (a :: rest) s r = parseMessagesGo files rest s r by
        simp [parseMessagesGo, hf]]
      exact ih _ _ _ h
    | some p =>
      rw [show parseMessagesGo files (a :: rest) s r
          = parseMessagesGo files rest (processCatalog p s r).1 (processCatalog p s r).2 by
        simp [parseMessagesGo, hf]]
      exact ih _ _ _ (processCatalog_mono_runtime _ _ _ _ h)

/-- Every message of a successfully parsed addon reaches its group. -/
theorem parseMessagesGo_contrib (files : String → Option (List (String × Json))) :
    ∀ (addons : List String) (s r : List (String × Json)) (a : String)
      (parsed : List (String × Json)) (id : String),
      a ∈ addons → files a = some parsed →
      id ∈ parsed.map Prod.fst → id ∉ SKIP_MESSAGES →
      (strIncludes id "/@" = true →
        id ∈ (parseMessagesGo files addons s r).1.map Prod.fst) ∧
      (strIncludes id "/@" = false →
        id ∈ (parseMessagesGo files addons s r).2.map Prod.fst) := by
  intro addons
  induction addons with
  | nil =>
    intro s r a parsed id ha
    exact absurd ha (List.not_mem_nil _)
  | cons b rest ih =>
    intro s r a parsed id ha hf hid hns
    rcases List.mem_cons.1 ha with rfl | ha'
    · rw [show parseMessagesGo files (a :: rest) s r
          = parseMessagesGo files rest (processCatalog parsed s r).1
              (processCatalog parsed s r).2 by simp [parseMessagesGo, hf]]
      constructor <;> intro hmk
      · apply parseMessagesGo_mono_settings
        rw [processCatalog, processCatalogGo_mem_settings]
        exact Or.inr ⟨(mem_sortKeys _ _).2 hid, hns, hmk⟩
      · apply parseMessagesGo_mono_runtime
        rw [processCatalog, processCatalogGo_mem_runtime]
        exact Or.inr ⟨(mem_sortKeys _ _).2 hid, hns, hmk⟩
    · cases hfb : files b with
      | none =>
        rw [show parseMessagesGo files (b :: rest) s r = parseMessagesGo files rest s r by
          simp [parseMessagesGo, hfb]]
        exact ih _ _ _ _ _ ha' hf hid hns
      | some p =>
        rw [show parseMessagesGo files (b :: rest) s r
            = parseMessagesGo files rest (processCatalog p s r).1 (processCatalog p s r).2 by
          simp [parseMessagesGo, hfb]]
        exact ih _ _ _ _ _ ha' hf hid hns

/-- C3: for every successfully parsed per-addon locale catalog, the
partitioner iterates the catalog ids in sorted order, skips exactly the
ids on the fixed exclusion list, routes every remaining id containing
the settings marker into the settings group and every other remaining
id into the runtime group; in particular, on the catalog
`{"foo/bar": "x", "foo/@settings-name": "y", "debugger/feedback-log": "z"}`
the result excludes `debugger/feedback-log`, places `foo/@settings-name`
in settings and `foo/bar` in runtime. -/
theorem parseMessages_partitions_catalog :
    (∀ (parsed s r : List (String × Json)) (id : String),
      (id ∈ (processCatalog parsed s r).1.map Prod.fst ↔
        id ∈ s.map Prod.fst ∨
          (id ∈ parsed.map Prod.fst ∧ id ∉ SKIP_MESSAGES ∧ strIncludes id "/@" = true)) ∧
      (id ∈ (processCatalog parsed s r).2.map Prod.fst ↔
        id ∈ r.map Prod.fst ∨
          (id ∈ parsed.map Prod.fst ∧ id ∉ SKIP_MESSAGES ∧ strIncludes id "/@" = false))) ∧
    processCatalog
      [("foo/bar", .str "x"), ("foo/@settings-name", .str "y"),
       ("debugger/feedback-log", .str "z")] [] []
      = ([("foo/@settings-name", .str "y")], [("foo/bar", .str "x")]) := by
  constructor
  · intro parsed s r id
    constructor
    · rw [processCatalog, processCatalogGo_mem_settings, mem_sortKeys]
    · rw [processCatalog, processCatalogGo_mem_runtime, mem_sortKeys]
  · rfl

/-- C9: an addon whose locale file is absent or unparsable is skipped
silently — the loop result is the same as if the addon were not listed —
and the groups still contain the messages of every addon whose file
parsed successfully. -/
theorem parseMessages_tolerates_missing_locales
    (addons : List String) (files : String → Option (List (String × Json))) :
    parseMessages addons files
      = parseMessages (addons.filter fun a => (files a).isSome) files ∧
    ∀ a ∈ addons, ∀ parsed, files a = some parsed →
      ∀ id ∈ parsed.map Prod.fst, id ∉ SKIP_MESSAGES →
        (strIncludes id "/@" = true →
          id ∈ (parseMessages addons files).1.map Prod.fst) ∧
        (strIncludes id "/@" = false →
          id ∈ (parseMessages addons files).2.map Prod.fst) := by
  constructor
  · exact parseMessagesGo_filter files addons [] []
  · intro a ha parsed hf id hid hns
    exact parseMessagesGo_contrib files addons [] [] a parsed id ha hf hid hns

/-- Concrete locale filesystem: one addon parses, one is missing. -/
def exFiles : String → Option (List (String × Json)) :=
  fun a =>
    if a = "good" then some [("good/msg", .str "m"), ("good/@settings-x", .str "s")]
    else none

/-- Witness for C9 at a concrete locale directory. -/
theorem parseMessages_tolerates_missing_locales_witness :
    parseMessages ["bad", "good"] exFiles
      = parseMessages (["bad", "good"].filter fun a => (exFiles a).isSome) exFiles ∧
    "good/msg" ∈ (parseMessages ["bad", "good"] exFiles).2.map Prod.fst := by
  have h := parseMessages_tolerates_missing_locales ["bad", "good"] exFiles
  exact ⟨h.1, (h.2 "good" (by simp) _ rfl "good/msg" (by simp [exFiles]) (by decide)).2
    (by decide)⟩

/-! ## Entry-table generator (`generateEntries`, pull.js lines 285–310)

`generateEntries(items, callback)` emits a generated module exporting an
object literal with one entry per item, in order: the emitted key is
`JSON.stringify(i)` — a string literal denoting the item `i` itself —
and the emitted value is a chunk-annotated `import` thunk for
`lazy-import`, a `require` thunk for `lazy-require` (no chunk name), or
a module-level `import _importN from src` binding for `eager-import`.
We model the emitted entry list by its denotation: the key is the item,
and an `EntryValue` describes the loader expression.  An unrecognized
`type` throws, aborting generation (`Except.error`). -/

structure Classified where
  src : String
  name : Option String
  type : String

/-- Denotation of one emitted entry value: `lazyImport` and
`lazyRequire` are zero-argument accessor functions that load `src` only
when invoked (the import variant through a chunk named by
`webpackChunkName` when present); `eagerImport` is a direct always-loaded
module-level binding of `src` under a generated internal name. -/
inductive EntryValue where
  | lazyImport (chunkName : Option String) (src : String)
  | lazyRequire (src : String)
  | eagerImport (importName : String) (src : String)
deriving DecidableEq

/-- The three recognized classification types. -/
def recognizedType (t : String) : Bool :=
  t = "lazy-import" || t = "lazy-require" || t = "eager-import"

def generateEntriesGo (callback : String → Classified) :
    List String → Nat → Except String (List (String × EntryValue))
  | [], _ => .ok []
  | i :: rest, importCount =>
    let c := callback i
    if c.type = "lazy-import" then
      (generateEntriesGo callback rest importCount).map
        (fun t => (i, .lazyImport c.name c.src) :: t)
    else if c.type = "lazy-require" then
      (generateEntriesGo callback rest importCount).map
        (fun t => (i, .lazyRequire c.src) :: t)
    else if c.type = "eager-import" then
      (generateEntriesGo callback rest (importCount + 1)).map
        (fun t => (i, .eagerImport ("_import" ++ toString importCount) c.src) :: t)
    else
      .error ("Unknown type: " ++ c.type)

def generateEntries (items : List String) (callback : String → Classified) :
    Except String (List (String × EntryValue)) :=
  generateEntriesGo callback items 0

theorem generateEntriesGo_ok_of_all (callback : String → Classified) :
    ∀ (items : List String) (n : Nat),
      (items.all fun i => recognizedType (callback i).type) = true →
      ∃ doc, generateEntriesGo callback items n = .ok doc := by
  intro items
  induction items with
  | nil => exact fun n _ => ⟨[], rfl⟩
  | cons i rest ih =>
    intro n hall
    have hrec : recognizedType (callback i).type = true := by
      have := List.all_eq_true.1 hall i (List.mem_cons_self _ _)
      simpa using this
    have hrest : (rest.all fun i => recognizedType (callback i).type) = true := by
      refine List.all_eq_true.2 fun j hj => ?_
      exact List.all_eq_true.1 hall j (List.mem_cons_of_mem _ hj)
    rcases (by simpa [recognizedType, or_assoc] using hrec :
        (callback i).type = "lazy-import" ∨ (callback i).type = "lazy-require" ∨
          (callback i).type = "eager-import") with ht | ht | ht
    · obtain ⟨doc, hdoc⟩ := ih n hrest
      exact ⟨(i, .lazyImport (callback i).name (callback i).src) :: doc,
        by simp [generateEntriesGo, ht, hdoc, Except.map]⟩
    · obtain ⟨doc, hdoc⟩ := ih n hrest
      exact ⟨(i, .lazyRequire (callback i).src) :: doc,
        by simp [generateEntriesGo, ht, hdoc, Except.map]⟩
    · obtain ⟨doc, hdoc⟩ := ih (n + 1) hrest
      exact ⟨(i, .eagerImport ("_import" ++ toString n) (callback i).src) :: doc,
        by simp [generateEntriesGo, ht, hdoc, Except.map]⟩

theorem generateEntriesGo_error_of_bad (callback : String → Classified) :
    ∀ (items : List String) (n : Nat),
      (items.all fun i => recognizedType (callback i).type) = false →
      ∃ e, generateEntriesGo callback items n = .error e := by
  intro items
  induction items with
  | nil => intro n h; simp at h
  | cons i rest ih =>
    intro n hall
    by_cases hrec : recognizedType (callback i).type = true
    · have hrest : (rest.all fun i => recognizedType (callback i).type) = false := by
        rcases Bool.eq_false_or_eq_true (rest.all fun i => recognizedType (callback i).type)
          with h | h
        · exact absurd hall (by simp [List.all_cons, hrec, h])
        · exact h
      rcases (by simpa [recognizedType, or_assoc] using hrec :
          (callback i).type = "lazy-import" ∨ (callback i).type = "lazy-require" ∨
            (callback i).type = "eager-import") with ht | ht | ht
      · obtain ⟨e, he⟩ := ih n hrest
        exact ⟨e, by simp [generateEntriesGo, ht, he, Except.map]⟩
      · obtain ⟨e, he⟩ := ih n hrest
        exact ⟨e, by simp [generateEntriesGo, ht, he, Except.map]⟩
      · obtain ⟨e, he⟩ := ih (n + 1) hrest
        exact ⟨e, by simp [generateEntriesGo, ht, he, Except.map]⟩
    · have h1 : ¬ (callback i).type = "lazy-import" := by
        intro h; exact hrec (by simp [recognizedType, h])
      have h2 : ¬ (callback i).type = "lazy-require" := by
        intro h; exact hrec (by simp [recognizedType, h])
      have h3 : ¬ (callback i).type = "eager-import" := by
        intro h; exact hrec (by simp [recognizedType, h])
      exact ⟨"Unknown type: " ++ (callback i).type,
        by simp [generateEntriesGo, h1, h2, h3]⟩

/-- C5: entry-table generation raises an error if and only if the
classification callback returns, for some item, a type outside the set
of the three recognized values lazy-import, lazy-require and
eager-import; when every item is classified with a recognized type it
returns the generated document without failing. -/
theorem generateEntries_error_iff (items : List String) (callback : String → Classified) :
    ((∃ e, generateEntries items callback = .error e) ↔
      ∃ i ∈ items, recognizedType (callback i).type = false) ∧
    ((∃ doc, generateEntries items callback = .ok doc) ↔
      ∀ i ∈ items, recognizedType (callback i).type = true) := by
  cases hall : items.all fun i => recognizedType (callback i).type
  · obtain ⟨e, he⟩ := generateEntriesGo_error_of_bad callback items 0 hall
    obtain ⟨i, hi, hbad⟩ : ∃ i ∈ items, ¬ recognizedType (callback i).type = true := by
      simpa using (List.all_eq_true.not.1 (by simp [hall]))
    constructor
    · exact iff_of_true ⟨e, he⟩ ⟨i, hi, by simpa using hbad⟩
    · refine iff_of_false ?_ ?_
      · rintro ⟨doc, hdoc⟩
        rw [generateEntries, he] at hdoc
        exact Except.noConfusion hdoc
      · intro hforall
        exact hbad (hforall i hi)
  · obtain ⟨doc, hdoc⟩ := generateEntriesGo_ok_of_all callback items 0 hall
    constructor
    · refine iff_of_false ?_ ?_
      · rintro ⟨e, he⟩
        rw [generateEntries, hdoc] at he
        exact Except.noConfusion he
      · rintro ⟨i, hi, hbad⟩
        have := List.all_eq_true.1 hall i hi
        simp [this] at hbad
    · exact iff_of_true ⟨doc, hdoc⟩ (List.all_eq_true.1 hall)

theorem generateEntriesGo_ok_spec (callback : String → Classified) :
    ∀ (items : List String) (n : Nat) (doc : List (String × EntryValue)),
      generateEntriesGo callback items n = .ok doc →
      doc.map Prod.fst = items ∧
      ∀ p ∈ doc,
        ((callback p.1).type = "lazy-import" →
          p.2 = .lazyImport (callback p.1).name (callback p.1).src) ∧
        ((callback p.1).type = "lazy-require" →
          p.2 = .lazyRequire (callback p.1).src) ∧
        ((callback p.1).type = "eager-import" →
          ∃ m : Nat, p.2 = .eagerImport ("_import" ++ toString m) (callback p.1).src) := by
  intro items
  induction items with
  | nil =>
    intro n doc h
    obtain rfl : ([] : List (String × EntryValue)) = doc := by
      simpa [generateEntriesGo] using h
    exact ⟨rfl, by simp⟩
  | cons i rest ih =>
    intro n doc h
    by_cases t1 : (callback i).type = "lazy-import"
    · rw [show generateEntriesGo callback (i :: rest) n
          = (generateEntriesGo callback rest n).map
              (fun t => (i, .lazyImport (callback i).name (callback i).src) :: t) by
        simp [generateEntriesGo, t1]] at h
      cases hx : generateEntriesGo callback rest n with
      | error e =>
        rw [hx] at h
        exact absurd h (by simp [Except.map])
      | ok doc' =>
        rw [hx] at h
        obtain rfl : (i, EntryValue.lazyImport (callback i).name (callback i).src) :: doc'
            = doc := by simpa [Except.map] using h
        obtain ⟨hkeys, hvals⟩ := ih n doc' hx
        refine ⟨by simp [hkeys], ?_⟩
        intro p hp
        rcases List.mem_cons.1 hp with rfl | hp'
        · exact ⟨fun _ => rfl, fun h2 => absurd h2 (by simp [t1]),
            fun h3 => absurd h3 (by simp [t1])⟩
        · exact hvals p hp'
    · by_cases t2 : (callback i).type = "lazy-require"
      · rw [show generateEntriesGo callback (i :: rest) n
            = (generateEntriesGo callback rest n).map
                (fun t => (i, .lazyRequire (callback i).src) :: t) by
          simp [generateEntriesGo, t1, t2]] at h
        cases hx : generateEntriesGo callback rest n with
        | error e =>
          rw [hx] at h
          exact absurd h (by simp [Except.map])
        | ok doc' =>
          rw [hx] at h
          obtain rfl : (i, EntryValue.lazyRequire (callback i).src) :: doc' = doc := by
            simpa [Except.map] using h
          obtain ⟨hkeys, hvals⟩ := ih n doc' hx
          refine ⟨by simp [hkeys], ?_⟩
          intro p hp
          rcases List.mem_cons.1 hp with rfl | hp'
          · exact ⟨fun h1 => absurd h1 (by simp [t2]), fun _ => rfl,
              fun h3 => absurd h3 (by simp [t2])⟩
          · exact hvals p hp'
      · by_cases t3 : (callback i).type = "eager-import"
        · rw [show generateEntriesGo callback (i :: rest) n
              = (generateEntriesGo callback rest (n + 1)).map
                  (fun t => (i, .eagerImport ("_import" ++ toString n) (callback i).src)
                    :: t) by
            simp [generateEntriesGo, t1, t2, t3]] at h
          cases hx : generateEntriesGo callback rest (n + 1) with
          | error e =>
            rw [hx] at h
            exact absurd h (by simp [Except.map])
          | ok doc' =>
            rw [hx] at h
            obtain rfl : (i, EntryValue.eagerImport ("_import" ++ toString n)
                (callback i).src) :: doc' = doc := by simpa [Except.map] using h
            obtain ⟨hkeys, hvals⟩ := ih (n + 1) doc' hx
            refine ⟨by simp [hkeys], ?_⟩
            intro p hp
            rcases List.mem_cons.1 hp with rfl | hp'
            · exact ⟨fun h1 => absurd h1 (by simp [t3]),
                fun h2 => absurd h2 (by simp [t3]), fun _ => ⟨n, rfl⟩⟩
            · exact hvals p hp'
        · rw [show generateEntriesGo callback (i :: rest) n
              = .error ("Unknown type: " ++ (callback i).type) by
            simp [generateEntriesGo, t1, t2, t3]] at h
          exact absurd h (by simp)

/-- C8 counterexample: key uniqueness fails for general item collections
because the key is derived from the item alone — a collection containing
a duplicated item produces a duplicated key in the emitted table. -/
theorem generateEntries_duplicate_keys :
    generateEntries ["a", "a"] (fun _ => ⟨"src.js", none, "lazy-require"⟩)
      = .ok [("a", .lazyRequire "src.js"), ("a", .lazyRequire "src.js")] ∧
    ¬ (([("a", EntryValue.lazyRequire "src.js"),
        ("a", EntryValue.lazyRequire "src.js")]).map Prod.fst).Nodup := by
  exact ⟨rfl, by decide⟩

/-- C8 amended: for every ordered collection of pairwise-distinct items,
the keys of the generated entry table are unique; unconditionally the
key list is exactly the item list (the key is the item's ordinary
textual representation, derived deterministically from it), the value
for a lazy-import or lazy-require item is a zero-argument accessor that
does not load `src` eagerly, and the value for an eager-import item is a
direct always-loaded binding to `src`. -/
theorem generateEntries_table_structure (items : List String)
    (callback : String → Classified) (doc : List (String × EntryValue))
    (h : generateEntries items callback = .ok doc) :
    doc.map Prod.fst = items ∧
    (items.Nodup → (doc.map Prod.fst).Nodup) ∧
    ∀ p ∈ doc,
      ((callback p.1).type = "lazy-import" →
        p.2 = .lazyImport (callback p.1).name (callback p.1).src) ∧
      ((callback p.1).type = "lazy-require" →
        p.2 = .lazyRequire (callback p.1).src) ∧
      ((callback p.1).type = "eager-import" →
        ∃ m : Nat, p.2 = .eagerImport ("_import" ++ toString m) (callback p.1).src) := by
  obtain ⟨hkeys, hvals⟩ := generateEntriesGo_ok_spec callback items 0 doc h
  exact ⟨hkeys, fun hnd => hkeys ▸ hnd, hvals⟩

/-- Witness for the amended C8 theorem at a concrete item collection. -/
theorem generateEntries_table_structure_witness :
    ([("fr", EntryValue.lazyImport (some "addon-l10n-fr") "../addons-l10n/fr.json"),
      ("it", EntryValue.lazyImport (some "addon-l10n-it") "../addons-l10n/it.json")].map
        Prod.fst) = ["fr", "it"] ∧
    (([("fr", EntryValue.lazyImport (some "addon-l10n-fr") "../addons-l10n/fr.json"),
      ("it", EntryValue.lazyImport (some "addon-l10n-it") "../addons-l10n/it.json")]).map
        Prod.fst).Nodup := by
  have h := generateEntries_table_structure ["fr", "it"]
    (fun l => ⟨"../addons-l10n/" ++ l ++ ".json", some ("addon-l10n-" ++ l), "lazy-import"⟩)
    [("fr", EntryValue.lazyImport (some "addon-l10n-fr") "../addons-l10n/fr.json"),
     ("it", EntryValue.lazyImport (some "addon-l10n-it") "../addons-l10n/it.json")] rfl
  exact ⟨h.1, h.2.1 (by decide)⟩

/-! ## Addon runtime entry table (`generateRuntimeEntries`, pull.js lines 329–341) -/

theorem generateEntriesGo_all_lazy (callback : String → Classified)
    (h : ∀ i, (callback i).type = "lazy-import" ∨ (callback i).type = "lazy-require") :
    ∀ (items : List String) (n : Nat),
      generateEntriesGo callback items n = .ok (items.map fun i =>
        (i, if (callback i).type = "lazy-require"
            then EntryValue.lazyRequire (callback i).src
            else EntryValue.lazyImport (callback i).name (callback i).src)) := by
  intro items
  induction items with
  | nil => intro n; rfl
  | cons i rest ih =>
    intro n
    rcases h i with ht | ht
    · simp [generateEntriesGo, ht, ih n, Except.map]
    · simp [generateEntriesGo, ht, ih n, Except.map]

/-- Classification callback of `generateRuntimeEntries`: src points at
the addon's generated runtime entry module, the chunk name groups all
default-enabled addons into `addon-default-entry` and gives every other
addon its own `addon-entry-<id>` chunk, and the type is `lazy-require`
exactly for addons enabled by default and not editor-only. -/
def runtimeCallback (addonIdToManifest : String → Json) (id : String) : Classified :=
  ⟨"../addons/" ++ id ++ "/_runtime_entry.js",
   some (if (addonIdToManifest id).truthyField "enabledByDefault"
         then "addon-default-entry" else "addon-entry-" ++ id),
   if (addonIdToManifest id).truthyField "enabledByDefault"
      && !(addonIdToManifest id).truthyField "editorOnly"
   then "lazy-require" else "lazy-import"⟩

def generateRuntimeEntries (addons : List String) (addonIdToManifest : String → Json) :
    Except String (List (String × EntryValue)) :=
  generateEntries addons (runtimeCallback addonIdToManifest)

/-- C2: the addon-runtime entry table maps each addon to a synchronous
require accessor (which carries no chunk name) exactly when its manifest
has `enabledByDefault` true and `editorOnly` false, and maps every other
addon to a lazy import whose chunk is `addon-default-entry` when
`enabledByDefault` is true and `addon-entry-<id>` otherwise. -/
theorem generateRuntimeEntries_classification (addons : List String)
    (addonIdToManifest : String → Json) :
    generateRuntimeEntries addons addonIdToManifest = .ok (addons.map fun id =>
      (id,
        if (addonIdToManifest id).truthyField "enabledByDefault"
            && !(addonIdToManifest id).truthyField "editorOnly"
        then EntryValue.lazyRequire ("../addons/" ++ id ++ "/_runtime_entry.js")
        else EntryValue.lazyImport
          (some (if (addonIdToManifest id).truthyField "enabledByDefault"
                 then "addon-default-entry" else "addon-entry-" ++ id))
          ("../addons/" ++ id ++ "/_runtime_entry.js"))) := by
  have hl : ∀ i, (runtimeCallback addonIdToManifest i).type = "lazy-import" ∨
      (runtimeCallback addonIdToManifest i).type = "lazy-require" := by
    intro i
    cases hb : (addonIdToManifest i).truthyField "enabledByDefault"
        && !(addonIdToManifest i).truthyField "editorOnly"
    · exact Or.inl (by simp [runtimeCallback, hb])
    · exact Or.inr (by simp [runtimeCallback, hb])
  rw [generateRuntimeEntries, generateEntries,
    generateEntriesGo_all_lazy (runtimeCallback addonIdToManifest) hl addons 0]
  refine congrArg Except.ok ?_
  refine List.map_congr_left fun id hid => ?_
  cases hb : (addonIdToManifest id).truthyField "enabledByDefault"
      && !(addonIdToManifest id).truthyField "editorOnly" <;>
    simp [runtimeCallback, hb]

/-! ## Tree walker (`walk`, pull.js lines 29–45)

`walk(dir)` lists the directory, pushes each plain file's name, and for
each subdirectory pushes `join(child, grandchild)` for every grandchild
path of its recursive walk.  The listing of a directory is modelled as a
sequence of named entries, each a file or a directory with its own
listing; a relative path is its list of components (`pathUtil.join`
concatenates components with the separator).  Real directory listings
never repeat a name: `wfEntries` states that invariant. -/

inductive FsEntries where
  | nil : FsEntries
  | consFile (childName : String) (rest : FsEntries) : FsEntries
  | consDir (childName : String) (children : FsEntries) (rest : FsEntries) : FsEntries

def walk : FsEntries → List (List String)
  | .nil => []
  | .consFile childName rest => [childName] :: walk rest
  | .consDir childName children rest =>
    (walk children).map (fun p => childName :: p) ++ walk rest

/-- Existence of a file at a relative path in the tree. -/
def hasFile : FsEntries → List String → Bool
  | .nil, _ => false
  | .consFile childName rest, p => p = [childName] || hasFile rest p
  | .consDir childName children rest, p =>
    (match p with
     | n :: q => childName = n && hasFile children q
     | [] => false) || hasFile rest p

def childNames : FsEntries → List String
  | .nil => []
  | .consFile n rest => n :: childNames rest
  | .consDir n _ rest => n :: childNames rest

/-- Well-formedness of a directory listing: entry names are distinct at
every level (guaranteed by the filesystem). -/
def wfEntries : FsEntries → Bool
  | .nil => true
  | .consFile n rest => !(childNames rest).contains n && wfEntries rest
  | .consDir n children rest =>
    !(childNames rest).contains n && wfEntries children && wfEntries rest

theorem mem_walk : ∀ (es : FsEntries) (p : List String),
    p ∈ walk es ↔ hasFile es p = true := by
  intro es
  induction es with
  | nil => intro p; simp [walk, hasFile]
  | consFile n rest ih =>
    intro p
    simp [walk, hasFile, ih]
  | consDir n children rest ihc ihr =>
    intro p
    cases p with
    | nil => simp [walk, hasFile, ihr]
    | cons m q =>
      simp only [walk, hasFile, List.mem_append, List.mem_map, Bool.or_eq_true,
        Bool.and_eq_true, decide_eq_true_eq, ihr]
      constructor
      · rintro (⟨p', hp', heq⟩ | hr)
        · rw [List.cons.injEq] at heq
          obtain ⟨hnm, hpq⟩ := heq
          subst hnm
          subst hpq
          exact Or.inl ⟨rfl, (ihc _).1 hp'⟩
        · exact Or.inr hr
      · rintro (⟨rfl, hc⟩ | hr)
        · exact Or.inl ⟨q, (ihc q).2 hc, rfl⟩
        · exact Or.inr hr

theorem walk_head : ∀ (es : FsEntries) (p : List String), p ∈ walk es →
    ∃ m q, p = m :: q ∧ m ∈ childNames es := by
  intro es
  induction es with
  | nil => intro p hp; simp [walk] at hp
  | consFile n rest ih =>
    intro p hp
    rcases List.mem_cons.1 hp with rfl | hp'
    · exact ⟨n, [], rfl, List.mem_cons_self _ _⟩
    · obtain ⟨m, q, rfl, hm⟩ := ih p hp'
      exact ⟨m, q, rfl, List.mem_cons_of_mem _ hm⟩
  | consDir n children rest ihc ihr =>
    intro p hp
    rcases List.mem_append.1 hp with hp' | hp'
    · obtain ⟨p', _, rfl⟩ := List.mem_map.1 hp'
      exact ⟨n, p', rfl, List.mem_cons_self _ _⟩
    · obtain ⟨m, q, rfl, hm⟩ := ihr p hp'
      exact ⟨m, q, rfl, List.mem_cons_of_mem _ hm⟩

theorem walk_nodup : ∀ es : FsEntries, wfEntries es = true → (walk es).Nodup := by
  intro es
  induction es with
  | nil => intro _; simp [walk]
  | consFile n rest ih =>
    intro h
    obtain ⟨hn, hr⟩ : n ∉ childNames rest ∧ wfEntries rest = true := by
      simpa [wfEntries] using h
    refine List.nodup_cons.2 ⟨?_, ih hr⟩
    intro hmem
    obtain ⟨m, q, heq, hm⟩ := walk_head rest [n] hmem
    rw [List.cons.injEq] at heq
    obtain ⟨rfl, -⟩ := heq
    exact hn hm
  | consDir n children rest ihc ihr =>
    intro h
    obtain ⟨hn, hc, hr⟩ : n ∉ childNames rest ∧
        wfEntries children = true ∧ wfEntries rest = true := by
      simpa [wfEntries, and_assoc] using h
    refine List.Nodup.append ?_ (ihr hr) ?_
    · refine (ihc hc).map ?_
      intro a b hab
      rw [List.cons.injEq] at hab
      exact hab.2
    · intro p hp hp'
      obtain ⟨p', _, rfl⟩ := List.mem_map.1 hp
      obtain ⟨m, q, heq, hm⟩ := walk_head rest _ hp'
      rw [List.cons.injEq] at heq
      obtain ⟨rfl, -⟩ := heq
      exact hn hm

/-- Concrete directory: file `a`, directory `b` containing files `c`
and `d`. -/
def exTree : FsEntries :=
  .consFile "a" (.consDir "b" (.consFile "c" (.consFile "d" .nil)) .nil)

/-- C10: on every directory tree (entry names are distinct within each
directory, as on a real filesystem) the walker returns exactly the
relative paths of all files — a path is returned iff a file exists
there — with no duplicates; in particular on a directory containing
files a, b/c, b/d it returns exactly those three relative paths. -/
theorem walk_exact (es : FsEntries) (hwf : wfEntries es = true) :
    (walk es).Nodup ∧
    (∀ p, p ∈ walk es ↔ hasFile es p = true) ∧
    walk exTree = [["a"], ["b", "c"], ["b", "d"]] := by
  exact ⟨walk_nodup es hwf, mem_walk es, rfl⟩

/-- Witness for C10 at the concrete directory. -/
theorem walk_exact_witness :
    wfEntries exTree = true ∧
    (walk exTree).Nodup ∧
    (["b", "c"] ∈ walk exTree ↔ hasFile exTree ["b", "c"] = true) := by
  have h := walk_exact exTree (by decide)
  exact ⟨by decide, h.1, h.2.1 ["b", "c"]⟩

/-! ## Asset-path rewriter (`includeImports`, pull.js lines 114–149)

`includeImports(folder, contents)` discovers the addon's image assets
(files under the addon directory ending in `.svg` or `.png`), synthesizes
a header with one static import per asset (`import _twAsset<i> from
"!url-loader!./<file>"`) and a resolver `_twGetAsset` that compares the
requested path against `"/<file>"` for each asset in order, returning
the matching imported binding or throwing `Unknown asset`.  It then
rewrites the two concatenation call patterns — the template-literal form
and the plain concatenation form — into calls of `_twGetAsset` with the
captured suffix expression, and prepends the header.

The two regex replaces are modelled as left-to-right scanners over the
character list.  The concatenation pattern captures the maximal nonempty
run of characters other than `;`, `,` and newline (greedy, nothing
follows the capture so no backtracking).  The template pattern captures
greedily up to the last closing brace inside the maximal run of
characters other than `;` and newline (the regex backtracks from the end
of the run to the last brace).  `processAddon` (pull.js lines 232–239)
applies the rewrite only when the contents mention `addon.self.dir` or
`addon.self.lib`. -/

def endsWithCh (suffix l : List Char) : Bool :=
  startsWithCh suffix.reverse l.reverse

/-- `String.prototype.endsWith`. -/
def endsWithStr (s suffix : String) : Bool :=
  endsWithCh suffix.toList s.toList

/-- Discovered assets: every file path under the addon directory (walk
output, components joined with the separator) with a recognized image
extension. -/
def dynamicAssets (folder : FsEntries) : List String :=
  ((walk folder).map (String.intercalate "/")).filter
    (fun f => endsWithStr f ".svg" || endsWithStr f ".png")

/-- Hex digit as produced by `Number.prototype.toString(16)`. -/
def hexDigit (n : Nat) : Char :=
  if n < 10 then Char.ofNat (48 + n) else Char.ofNat (87 + n)

/-- One character of `JSON.stringify` string escaping. -/
def jsonEscapeChar (c : Char) : List Char :=
  if c = '"' then ['\\', '"']
  else if c = '\\' then ['\\', '\\']
  else if c = '\x08' then ['\\', 'b']
  else if c = '\t' then ['\\', 't']
  else if c = '\n' then ['\\', 'n']
  else if c = '\x0c' then ['\\', 'f']
  else if c = '\r' then ['\\', 'r']
  else if c.toNat < 32 then
    ['\\', 'u', '0', '0', hexDigit (c.toNat / 16), hexDigit (c.toNat % 16)]
  else [c]

def jsonStringifyStr (s : String) : String :=
  "\"" ++ String.mk (s.toList.foldr (fun c acc => jsonEscapeChar c ++ acc) []) ++ "\""

/-- The `replace(/\\\\/g, '/')` step of `stringifyPath`: each pair of
backslash characters (the JSON-escaped form of one backslash, i.e. a
Windows path separator) becomes a forward slash. -/
def replaceEscBackslash : List Char → List Char
  | '\\' :: '\\' :: rest => '/' :: replaceEscBackslash rest
  | c :: rest => c :: replaceEscBackslash rest
  | [] => []

def stringifyPath (path : String) : String :=
  String.mk (replaceEscBackslash (jsonStringifyStr path).toList)

def assetImportLines : List (Nat × String) → String
  | [] => ""
  | (i, file) :: rest =>
    "import _twAsset" ++ toString i ++ " from "
      ++ stringifyPath ("!url-loader!./" ++ file) ++ ";\n" ++ assetImportLines rest

def assetCondLines : List (Nat × String) → String
  | [] => ""
  | (i, file) :: rest =>
    "  if (path === " ++ stringifyPath ("/" ++ file) ++ ") return _twAsset"
      ++ toString i ++ ";\n" ++ assetCondLines rest

/-- The synthesized header prepended by `includeImports`. -/
def headerText (assets : List String) : String :=
  "/* inserted by pull.js */\n"
    ++ assetImportLines assets.enum
    ++ "const _twGetAsset = (path) => \x7b\n"
    ++ assetCondLines assets.enum
    ++ "  throw new Error(`Unknown asset: $\x7bpath\x7d`);\n"
    ++ "\x7d;\n"
    ++ "\n"

/-- Denotation of the generated `_twGetAsset` resolver: the conditions
`path === "/<file>"` are tried in asset order; `some i` means the
statically-imported binding `_twAsset<i>` is returned, `none` means the
`Unknown asset` error is thrown. -/
def twGetAssetGo : List String → String → Nat → Option Nat
  | [], _, _ => none
  | f :: rest, path, idx =>
    if path = "/" ++ f then some idx else twGetAssetGo rest path (idx + 1)

def twGetAsset (assets : List String) (path : String) : Option Nat :=
  twGetAssetGo assets path 0

def dropPrefixCh : List Char → List Char → Option (List Char)
  | [], l => some l
  | _ :: _, [] => none
  | p :: ps, c :: cs => if p = c then dropPrefixCh ps cs else none

/-- The regex token ` *`: zero or more space characters. -/
def dropSpaces : List Char → List Char
  | ' ' :: rest => dropSpaces rest
  | l => l

/-- Maximal prefix avoiding the given characters, with the remainder. -/
def takeRun (bad : List Char) : List Char → List Char × List Char
  | [] => ([], [])
  | c :: cs =>
    if bad.contains c then ([], c :: cs)
    else
      let pr := takeRun bad cs
      (c :: pr.1, pr.2)

/-- The literal `addon\.self\.(?:dir|lib)` (the alternation tries `dir`
first; both branches have length three and are disjoint). -/
def dropBasePath (l : List Char) : Option (List Char) :=
  match dropPrefixCh "addon.self.".toList l with
  | none => none
  | some l1 =>
    match dropPrefixCh "dir".toList l1 with
    | some l2 => some l2
    | none => dropPrefixCh "lib".toList l1

/-- Match of `addon\.self\.(?:dir|lib) *\+ *([^;,\n]+)` at the head of
the list: returns the capture and the remainder after the match. -/
def tryMatchConcat (l : List Char) : Option (List Char × List Char) :=
  match dropBasePath l with
  | none => none
  | some l2 =>
    match dropSpaces l2 with
    | '+' :: l4 =>
      let pr := takeRun [';', ',', '\n'] (dropSpaces l4)
      if pr.1.isEmpty then none else some (pr.1, pr.2)
    | _ => none

/-- Scan for the concatenation pattern, replacing each match by
`_twGetAsset(<capture>)` and continuing after it, as
`String.prototype.replace` with a global regex does.  Every step
consumes at least one input character (a match consumes the base path,
the plus and a nonempty capture), so `l.length` steps of fuel always
suffice. -/
def rewriteConcatGo : Nat → List Char → List Char
  | 0, l => l
  | _ + 1, [] => []
  | fuel + 1, c :: cs =>
    match tryMatchConcat (c :: cs) with
    | some (cap, rest) =>
      "_twGetAsset(".toList ++ cap ++ ')' :: rewriteConcatGo fuel rest
    | none => c :: rewriteConcatGo fuel cs

def rewriteConcat (l : List Char) : List Char := rewriteConcatGo l.length l

/-- Split a list before its last closing brace: `l = a ++ brace :: b`. -/
def lastSplitAtBrace : List Char → Option (List Char × List Char)
  | [] => none
  | x :: xs =>
    match lastSplitAtBrace xs with
    | some pr => some (x :: pr.1, pr.2)
    | none => if x = '\x7d' then some ([], xs) else none

/-- Match of the template-literal pattern at the head of the list: after
the dollar-brace and base path, a plus and the capture `[^;\n]+` which
must be followed by a closing brace — the regex engine backtracks the
greedy capture to the last closing brace inside the run. -/
def tryMatchTemplate (l : List Char) : Option (List Char × List Char) :=
  match l with
  | '$' :: '\x7b' :: l1 =>
    (match dropBasePath l1 with
     | none => none
     | some l2 =>
       match dropSpaces l2 with
       | '+' :: l4 =>
         let pr := takeRun [';', '\n'] (dropSpaces l4)
         (match lastSplitAtBrace pr.1 with
          | none => none
          | some capAfter =>
            if capAfter.1.isEmpty then none
            else some (capAfter.1, capAfter.2 ++ pr.2))
       | _ => none)
  | _ => none

def rewriteTemplateGo : Nat → List Char → List Char
  | 0, l => l
  | _ + 1, [] => []
  | fuel + 1, c :: cs =>
    match tryMatchTemplate (c :: cs) with
    | some (cap, rest) =>
      "$\x7b_twGetAsset(".toList ++ cap ++ ')' :: '\x7d' :: rewriteTemplateGo fuel rest
    | none => c :: rewriteTemplateGo fuel cs

def rewriteTemplate (l : List Char) : List Char := rewriteTemplateGo l.length l

/-- `includeImports`: header plus both rewrites (template form first,
then concatenation form, as in the source). -/
def includeImports (folder : FsEntries) (contents : String) : String :=
  headerText (dynamicAssets folder)
    ++ String.mk (rewriteConcat (rewriteTemplate contents.toList))

/-- The `.js` branch of `processAddon` (pull.js lines 232–239):
polyfills are injected first, then the asset rewrite is applied only
when the resulting contents mention the base-path token.
(`includeImportedLibraries` only copies library files on the side and
does not alter the contents.) -/
def processJsContents (folder : FsEntries) (contents : String) : String :=
  let c := includePolyfills contents
  if strIncludes c "addon.self.dir" || strIncludes c "addon.self.lib" then
    includeImports folder c
  else c

theorem string_append_left_cancel {s t u : String} (h : s ++ t = s ++ u) : t = u := by
  apply String.ext
  have := congrArg String.data h
  simp only [String.data_append] at this
  exact List.append_cancel_left this

theorem twGetAssetGo_found :
    ∀ (assets : List String) (f : String) (idx : Nat), f ∈ assets →
      ∃ k, twGetAssetGo assets ("/" ++ f) idx = some (idx + k) ∧
        assets.get? k = some f := by
  intro assets
  induction assets with
  | nil => intro f idx hf; exact absurd hf (List.not_mem_nil _)
  | cons g rest ih =>
    intro f idx hf
    by_cases hfg : f = g
    · subst hfg
      exact ⟨0, by simp [twGetAssetGo], rfl⟩
    · have hne : ¬ ("/" ++ f = "/" ++ g) := fun e => hfg (string_append_left_cancel e)
      have hf' : f ∈ rest := by
        rcases List.mem_cons.1 hf with rfl | h
        · exact absurd rfl hfg
        · exact h
      obtain ⟨k, hk, hg⟩ := ih f (idx + 1) hf'
      refine ⟨k + 1, ?_, by simpa using hg⟩
      rw [show twGetAssetGo (g :: rest) ("/" ++ f) idx
          = twGetAssetGo rest ("/" ++ f) (idx + 1) by simp [twGetAssetGo, hne]]
      rw [hk]
      congr 1
      omega

theorem twGetAssetGo_not_found :
    ∀ (assets : List String) (path : String) (idx : Nat),
      (∀ f ∈ assets, ¬ path = "/" ++ f) → twGetAssetGo assets path idx = none := by
  intro assets
  induction assets with
  | nil => intro path idx _; rfl
  | cons g rest ih =>
    intro path idx h
    rw [show twGetAssetGo (g :: rest) path idx = twGetAssetGo rest path (idx + 1) by
      simp [twGetAssetGo, h g (List.mem_cons_self _ _)]]
    exact ih path _ fun f hf => h f (List.mem_cons_of_mem _ hf)

/-- C4: the asset-path rewriter.  (i) Each occurrence of a concatenation
of `addon.self.dir` or `addon.self.lib` with a suffix expression is
replaced by a call of the generated resolver with that suffix expression
as argument — shown on contents with two occurrences, one per base-path
form.  (ii) The resolver, given `"/<file>"` for a discovered asset file,
returns that file's statically-imported binding (`some` of its import
index), and given a path matching no discovered asset it throws the
explicit unknown-asset error (`none`).  (iii) The rewrite is applied
exactly to files whose (polyfill-processed) contents contain a base-path
token. -/
theorem includeImports_rewrites_assets :
    (includeImports (.consFile "icon.svg" (.consFile "script.js" .nil))
        "el.src = addon.self.dir + \"/icon.svg\";\nel.href = addon.self.lib + x;"
      = headerText ["icon.svg"]
        ++ "el.src = _twGetAsset(\"/icon.svg\");\nel.href = _twGetAsset(x);") ∧
    (∀ (folder : FsEntries) (f : String), f ∈ dynamicAssets folder →
      ∃ j, twGetAsset (dynamicAssets folder) ("/" ++ f) = some j ∧
        (dynamicAssets folder).get? j = some f) ∧
    (∀ (folder : FsEntries) (path : String),
      (∀ f ∈ dynamicAssets folder, ¬ path = "/" ++ f) →
      twGetAsset (dynamicAssets folder) path = none) ∧
    (∀ (folder : FsEntries) (contents : String),
      ((strIncludes (includePolyfills contents) "addon.self.dir" = true ∨
        strIncludes (includePolyfills contents) "addon.self.lib" = true) →
        processJsContents folder contents
          = includeImports folder (includePolyfills contents)) ∧
      (strIncludes (includePolyfills contents) "addon.self.dir" = false →
        strIncludes (includePolyfills contents) "addon.self.lib" = false →
        processJsContents folder contents = includePolyfills contents)) := by
  refine ⟨by rfl, ?_, ?_, ?_⟩
  · intro folder f hf
    obtain ⟨k, hk, hg⟩ := twGetAssetGo_found (dynamicAssets folder) f 0 hf
    exact ⟨k, by simpa [twGetAsset] using hk, hg⟩
  · intro folder path h
    exact twGetAssetGo_not_found (dynamicAssets folder) path 0 h
  · intro folder contents
    constructor
    · rintro (h | h) <;> simp [processJsContents, h]
    · intro h1 h2
      simp [processJsContents, h1, h2]

/-- Witness for C4 at a concrete addon directory and path. -/
theorem includeImports_rewrites_assets_witness :
    (∃ j, twGetAsset (dynamicAssets (.consFile "icon.svg" (.consFile "script.js" .nil)))
        ("/" ++ "icon.svg") = some j ∧
      (dynamicAssets (.consFile "icon.svg" (.consFile "script.js" .nil))).get? j
        = some "icon.svg") ∧
    twGetAsset (dynamicAssets (.consFile "icon.svg" (.consFile "script.js" .nil)))
      "/missing.png" = none := by
  have h := includeImports_rewrites_assets
  refine ⟨h.2.1 _ "icon.svg" (by decide), h.2.2.1 _ "/missing.png" ?_⟩
  intro f hf
  have : f = "icon.svg" := by
    have hl : dynamicAssets (.consFile "icon.svg" (.consFile "script.js" .nil))
        = ["icon.svg"] := by decide
    rw [hl] at hf
    simpa using hf
  subst this
  decide

end Pull
